import Mathlib

/-!
Verification development for the DNA sequence-design library `dsd/np.py`.

The Python source operates on numpy arrays of unsigned bytes holding the
2-bit DNA base codes A=0, C=1, G=2, T=3.  We embed:

* a 2D code matrix as `List (List (Fin 4))` (row major, one entry per base);
* floating-point energies as exact rationals `ℚ` (the SantaLucia-Hicks
  enthalpy/entropy constants are finite decimals, so every energy value in
  the model is an exact rational);
* fallible code paths (dictionary `KeyError`, `raise ValueError`) as
  `Option`/`Except`.
-/

set_option maxRecDepth 4000

/-- Embedding of the list `bits2base = ['A', 'C', 'G', 'T']`, indexed by a
2-bit code. -/
def bits2base (b : Fin 4) : Char :=
  (['A', 'C', 'G', 'T']).getD b.val 'A'

/-- Embedding of the dict `base2bits` from `np.py`: maps the eight characters
`AaCcGgTt` to their 2-bit codes; any other character is a `KeyError`,
modelled as `none`. -/
def base2bits (c : Char) : Option (Fin 4) :=
  if c = 'A' ∨ c = 'a' then some 0
  else if c = 'C' ∨ c = 'c' then some 1
  else if c = 'G' ∨ c = 'g' then some 2
  else if c = 'T' ∨ c = 't' then some 3
  else none

/-- Map a fallible function over a list, failing if any element fails (the
evaluation order of a Python list comprehension whose body may raise). -/
def optionMap {α β : Type} (f : α → Option β) : List α → Option (List β)
  | [] => some []
  | a :: l =>
    match f a, optionMap f l with
    | some b, some bl => some (b :: bl)
    | _, _ => none

/-- Embedding of `seq2arr`: convert a DNA string (list of characters) to the
list of 2-bit codes; a character outside the alphabet raises `KeyError`
(`none`). -/
def seq2arr (seq : List Char) : Option (List (Fin 4)) :=
  optionMap base2bits seq

/-- Embedding of `arr2seq`: convert a row of 2-bit codes back to the DNA
string by indexing `bits2base`. -/
def arr2seq (arr : List (Fin 4)) : List Char :=
  arr.map bits2base

/-- The 16 nearest-neighbor enthalpies `_dH` (kcal/mol), Table 1 of
SantaLucia-Hicks 2004, indexed by the pair key `(first <<< 2) + second`.
Out-of-range keys (never produced by the code) default to 0. -/
def dH : Nat → ℚ
  | 0 => -76/10 | 1 => -84/10 | 2 => -78/10 | 3 => -72/10
  | 4 => -85/10 | 5 => -80/10 | 6 => -106/10 | 7 => -78/10
  | 8 => -82/10 | 9 => -98/10 | 10 => -80/10 | 11 => -84/10
  | 12 => -72/10 | 13 => -82/10 | 14 => -85/10 | 15 => -76/10
  | _ => 0

/-- The 16 nearest-neighbor entropies `_dS` (cal/mol/K), Table 1 of
SantaLucia-Hicks 2004, indexed by the pair key `(first <<< 2) + second`. -/
def dS : Nat → ℚ
  | 0 => -213/10 | 1 => -224/10 | 2 => -210/10 | 3 => -204/10
  | 4 => -227/10 | 5 => -199/10 | 6 => -272/10 | 7 => -210/10
  | 8 => -222/10 | 9 => -244/10 | 10 => -199/10 | 11 => -224/10
  | 12 => -213/10 | 13 => -222/10 | 14 => -227/10 | 15 => -213/10
  | _ => 0

/-- Embedding of `calculate_loop_energies`: the 16-entry stacking free-energy
table at the given Celsius temperature,
`dG = dH - (T + 273.15) * dS / 1000`, optionally negated.  The table is a
pure function of `(temperature, negate)` (the `lru_cache` is an
optimization with no semantic content). -/
def calculate_loop_energies (temperature : ℚ) (negate : Bool) (k : Nat) : ℚ :=
  let e := dH k - (temperature + 27315/100) * dS k / 1000
  if negate then -e else e

/-- Embedding of `calculate_loop_energies_dict`: the same 16-entry table keyed
by the dinucleotide string (here: its two characters).  A key not of the
form `bits2base i ++ bits2base j` is a `KeyError` (`none`). -/
def calculate_loop_energies_dict (temperature : ℚ) (negate : Bool)
    (c1 c2 : Char) : Option ℚ :=
  match base2bits c1, base2bits c2 with
  | some a, some b => some (calculate_loop_energies temperature negate (4 * a.val + b.val))
  | _, _ => none

/-- Embedding of the scalar `wcenergy(seq, temperature, negate)`: sum of the
dictionary entries of the dinucleotides `seq[i:i+2]` for
`i in range(len(seq)-1)`.  A `KeyError` on any dinucleotide is `none`. -/
def wcenergy (seq : List Char) (temperature : ℚ) (negate : Bool) : Option ℚ :=
  (optionMap
    (fun i => calculate_loop_energies_dict temperature negate
      (seq.getD i ' ') (seq.getD (i + 1) ' '))
    (List.range (seq.length - 1))).map List.sum

/-- Embedding of the batched `calculate_wc_energies(seqarr, temperature,
negate)`: per row, the pair-key matrix is built from the shifted slices
`seqarr[:, :-1] << 2` and `seqarr[:, 1:]`, the 16-entry table is gathered at
those keys, and the result is reduce-summed along the position axis.
(The optional content-hash cache `CACHE_WC` is disabled by default and has
no semantic content.) -/
def calculate_wc_energies (seqarr : List (List (Fin 4))) (temperature : ℚ)
    (negate : Bool) : List ℚ :=
  seqarr.map (fun row =>
    (List.zipWith
      (fun a b => calculate_loop_energies temperature negate (4 * a.val + b.val))
      row.dropLast (row.drop 1)).sum)

/-- Embedding of the byte arithmetic `3 - x` on `np.ubyte` values
(wrap-around modulo 256); total on `x < 256`. -/
def wc_byte (x : Nat) : Nat :=
  (256 + 3 - x) % 256

/-- Embedding of `wc_arr`: `(3 - seqarr)[:, ::-1]`, i.e. complement every
byte then reverse the column order of every row. -/
def wc_arr (seqarr : List (List Nat)) : List (List Nat) :=
  seqarr.map (fun row => (row.map wc_byte).reverse)

/-- Embedding of the first line written by `DNASeqList.write_to_file`:
`str(numseqs) + ' ' + str(seqlen)`, i.e. exactly two whitespace-separated
fields (decimal integer literals contain no whitespace). -/
def write_to_file_header_fields (numseqs seqlen : Nat) : List String :=
  [toString numseqs, toString seqlen]

/-- Embedding of the header parse in `DNASeqList._read_from_file`:
`num_seqs_str, seq_len_str, temperature = first_line.split()` followed by
`int(...)` on the first two fields.  Unpacking requires exactly three
whitespace-separated fields; a wrong field count or a non-integer field
raises `ValueError` (modelled as `Except.error`). -/
def read_from_file_header (fields : List String) : Except String (Nat × Nat) :=
  match fields with
  | [a, b, _] =>
    match a.toNat?, b.toNat? with
    | some n, some s => Except.ok (n, s)
    | _, _ => Except.error "invalid literal for int"
  | _ => Except.error "not enough values to unpack (expected 3)"

/-- Boolean test for the error case of an `Except` value. -/
def isErrorE {ε α : Type} : Except ε α → Bool
  | Except.error _ => true
  | Except.ok _ => false

/-- Embedding of `np.repeat(l, n)` on a 1D array: each element repeated `n`
times consecutively. -/
def np_repeat {α : Type} (l : List α) (n : Nat) : List α :=
  l.flatMap (fun x => List.replicate n x)

/-- Embedding of `np.tile(l, n)` on a 1D array (and of
`np.tile(m, (n, 1))` on a 2D array viewed as a list of rows): the whole
list repeated `n` times. -/
def np_tile {α : Type} (l : List α) (n : Nat) : List α :=
  (List.replicate n l).flatten

/-- The core of `make_array_with_all_dna_seqs` (the `else` branch actually
executed, since `list_of_arrays = False`): column `c` of the output is
`np.tile(np.repeat(base_bits, k ^ (length - 1 - c)), k ^ c)` where
`k = len(bases)`. -/
def make_all_seqs_column (base_bits : List (Fin 4)) (length c : Nat) : List (Fin 4) :=
  np_tile (np_repeat base_bits (base_bits.length ^ (length - 1 - c)))
    (base_bits.length ^ c)

/-- The matrix assembled by `make_array_with_all_dna_seqs`: `k ^ length` rows,
row `r` reads entry `r` of each of the `length` columns. -/
def make_all_seqs_arr (base_bits : List (Fin 4)) (length : Nat) : List (List (Fin 4)) :=
  (List.range (base_bits.length ^ length)).map
    (fun r => (List.range length).map
      (fun c => (make_all_seqs_column base_bits length c).getD r 0))

/-- Embedding of `make_array_with_all_dna_seqs(length, bases)`: validates that
`bases` is a subset of `{A,C,G,T}` and nonempty (raising `ValueError`
otherwise), converts the bases to 2-bit codes in the iteration order of
`bases`, and builds the column-by-column enumeration matrix. -/
def make_array_with_all_dna_seqs (length : Nat) (bases : List Char) :
    Except String (List (List (Fin 4))) :=
  if ¬ bases.all (fun c => c ∈ (['A', 'C', 'G', 'T'] : List Char)) then
    Except.error "bases must be a subset"
  else if bases.length = 0 then
    Except.error "bases cannot be empty"
  else
    Except.ok (make_all_seqs_arr (bases.filterMap base2bits) length)

/-- Digit `c` (most significant first) of `r` written in base `k` with `L`
digits: the enumeration matrix places `bases[msdigit k L r c]` at row `r`,
column `c`. -/
def msdigit (k L r c : Nat) : Nat :=
  (r / k ^ (L - 1 - c)) % k

/-- Tag recording which construction path `DNASeqList.__init__` selected,
together with the pure payload it builds.  `fromFile` performs file I/O and
`fromLengthRandom` draws from the random generator; both are recorded as
tags only. -/
inductive DNASeqListInit : Type where
  | fromSeqarr (arr : List (List (Fin 4))) : DNASeqListInit
  | fromSeqs (arr : List (List (Fin 4))) : DNASeqListInit
  | fromFile (filename : String) : DNASeqListInit
  | fromLengthAll (arr : List (List (Fin 4))) : DNASeqListInit
  | fromLengthRandom (length num : Nat) : DNASeqListInit

/-- Embedding of the source-selection logic of `DNASeqList.__init__`: the
pairwise check over `it.combinations([length, seqs, seqarr, filename], 2)`
raises if any two are non-None; then the branches are tried in source order
(`seqarr`, `seqs`, `filename`, `length`), and if none is supplied the final
`else` raises.  (`shuffle` and `rng` only affect row order / randomness and
are omitted; `num_random_seqs` and `alphabet` are the remaining recognized
options.) -/
def dnaseqlist_init (length : Option Nat) (num_random_seqs : Option Nat)
    (alphabet : List Char) (seqs : Option (List (List Char)))
    (seqarr : Option (List (List (Fin 4)))) (filename : Option String) :
    Except String DNASeqListInit :=
  if (length.isSome && seqs.isSome) || (length.isSome && seqarr.isSome) ||
     (length.isSome && filename.isSome) || (seqs.isSome && seqarr.isSome) ||
     (seqs.isSome && filename.isSome) || (seqarr.isSome && filename.isSome) then
    Except.error "exactly one of length, seqs, seqarra, or filename can be non-None"
  else
    match seqarr, seqs, filename, length with
    | some arr, _, _, _ => Except.ok (DNASeqListInit.fromSeqarr arr)
    | none, some s, _, _ =>
      if s.length = 0 then Except.error "seqs must have positive length"
      else if s.any (fun q => q.length ≠ (s.headD []).length) then
        Except.error "All sequences in seqs must be equal length"
      else Except.ok (DNASeqListInit.fromSeqs (s.map (fun q => q.filterMap base2bits)))
    | none, none, some f, _ => Except.ok (DNASeqListInit.fromFile f)
    | none, none, none, some len =>
      match num_random_seqs with
      | none => (make_array_with_all_dna_seqs len alphabet).map DNASeqListInit.fromLengthAll
      | some n => Except.ok (DNASeqListInit.fromLengthRandom len n)
    | none, none, none, none =>
      Except.error "at least one of length, seqs, seqarr, or filename must be specified"

/-- The number of construction sources supplied to `DNASeqList.__init__`. -/
def initSourcesSupplied (length : Option Nat) (seqs : Option (List (List Char)))
    (seqarr : Option (List (List (Fin 4)))) (filename : Option String) : Nat :=
  ([length.isSome, seqs.isSome, seqarr.isSome, filename.isSome]).count true

/-- Embedding of the per-pair Hamming distance
`np.sum(np.bitwise_xor(a, b) != 0, axis=1)`: the number of positions at
which the two rows differ (`xor` of two bytes is nonzero iff they differ). -/
def hamming_distance (a b : List (Fin 4)) : Nat :=
  (List.zipWith (fun x y => if x = y then 0 else 1) a b).sum

/-- Embedding of `np.min` over the Hamming distances from `seq` to every row
of `keep` (`keep` is always nonempty where the code calls this). -/
def hammingMin (keep : List (List (Fin 4))) (seq : List (Fin 4)) : Nat :=
  ((keep.map (fun r => hamming_distance r seq)).min?).getD 0

/-- State machine for the nested while loops of `DNASeqList.filter_hamming`.
The working set is the remaining `seqarr` listed in pop order (last row
first).  `cur = none` is the outer loop about to pop; `cur = some seq` is
the inner loop holding the candidate `seq`:

* outer loop with empty working set: stop, the retained rows are the result;
* outer loop otherwise: pop the next row and enter the inner loop;
* inner loop with empty working set: the `while` guard fails, so `seq` is
  appended to the retained rows without any distance check (and the outer
  loop then stops, as the working set is empty);
* inner loop otherwise: if `seq` is not too close to the retained rows,
  break and append it; else pop the next candidate. -/
def hammingGo (threshold : Nat) (keep : List (List (Fin 4))) :
    Option (List (Fin 4)) → List (List (Fin 4)) → List (List (Fin 4))
  | none, [] => keep
  | none, x :: rest => hammingGo threshold keep (some x) rest
  | some seq, [] => keep ++ [seq]
  | some seq, x :: rest =>
    if threshold ≤ hammingMin keep seq then
      hammingGo threshold (keep ++ [seq]) none (x :: rest)
    else
      hammingGo threshold keep (some x) rest
termination_by cur working => (working.length, if cur.isSome then 1 else 0)

/-- Embedding of `DNASeqList.filter_hamming(threshold)` on a nonempty row
list: the last row is popped and seeds the retained set, the remaining rows
are shuffled, and the nested greedy loops run.  `shuffled_rev` is the
shuffled remainder listed in pop order (the shuffle makes this order an
arbitrary permutation of the other rows). -/
def filter_hamming (threshold : Nat) (rows : List (List (Fin 4)))
    (shuffled_rev : List (List (Fin 4))) : List (List (Fin 4)) :=
  hammingGo threshold [rows.getLastD []] none shuffled_rev

/-- Index of the first occurrence of the maximum of a list (`np.argmax` on
the flattened array); 0 on the empty list. -/
def argmaxFirst {α : Type} [LinearOrder α] : List α → Nat
  | [] => 0
  | x :: xs => if xs.all (fun y => decide (y ≤ x)) then 0 else argmaxFirst xs + 1

/-- The dynamic-programming match-length table shared by all
longest-common-substring variants: `counter[i+1][j+1] = counter[i][j] + 1`
when `a1[i] == a2[j]`, all other entries 0.  (The vectorized loops build
exactly this table: row `i1+1` receives `counter[i1, j] + 1` at the shifted
positions where `a2[j] == a1[i1]` and initialized zeros elsewhere.) -/
def lcsCounter (a1 a2 : List (Fin 4)) : Nat → Nat → Nat
  | 0, _ => 0
  | _ + 1, 0 => 0
  | i + 1, j + 1 =>
    if i < a1.length ∧ j < a2.length ∧ a1.getD i 0 = a2.getD j 0 then
      lcsCounter a1 a2 i j + 1
    else 0

/-- The counter table of one pair flattened in row-major (C) order, as
`np.argmax` traverses it: entry `k` is `counter[k / (n+1)][k % (n+1)]`. -/
def counterFlat (a1 a2 : List (Fin 4)) : List Nat :=
  (List.range ((a1.length + 1) * (a2.length + 1))).map
    (fun k => lcsCounter a1 a2 (k / (a2.length + 1)) (k % (a2.length + 1)))

/-- Embedding of the single-pair `longest_common_substring(a1, a2)`
(vectorized branch): argmax over the flattened counter table; if the argmax
lies in row 0 the initial sentinel `(-1, -1, 0)` is returned, otherwise
`(i1 - len, i2 - len, len)`. -/
def longest_common_substring (a1 a2 : List (Fin 4)) : Int × Int × Nat :=
  let n := a2.length
  let flat := counterFlat a1 a2
  let k := argmaxFirst flat
  let i1 := k / (n + 1)
  let i2 := k % (n + 1)
  if 0 < i1 then
    let len := flat.getD k 0
    ((i1 : Int) - len, (i2 : Int) - len, len)
  else (-1, -1, 0)

/-- One pair of the batched `_longest_common_substrings_pairs`: same counter
table and argmax, but the result is always `(i1 - len, i2 - len, len)`
(an all-zero table yields the distinct sentinel `(0, 0, 0)`). -/
def lcsPairEntry (a1 a2 : List (Fin 4)) : Int × Int × Nat :=
  let n := a2.length
  let flat := counterFlat a1 a2
  let k := argmaxFirst flat
  let len := flat.getD k 0
  (((k / (n + 1) : Nat) : Int) - len, ((k % (n + 1) : Nat) : Int) - len, len)

/-- Embedding of `_longest_common_substrings_pairs(a1s, a2s)`: the batched
DP runs every row pair independently (each slice of the 3D counter tensor
is the counter table of one pair). -/
def longest_common_substrings_pairs (a1s a2s : List (List (Fin 4))) :
    List (Int × Int × Nat) :=
  (a1s.zip a2s).map (fun p => lcsPairEntry p.1 p.2)

/-- Embedding of `np.reshape(flat, (p, q))` in C order: entry `[i][j]` is
`flat[i*q + j]`. -/
def np_reshape2 {α : Type} (p q : Nat) (flat : List α) (d : α) : List (List α) :=
  (List.range p).map (fun i => (List.range q).map (fun j => flat.getD (i * q + j) d))

/-- Embedding of `longest_common_substrings_product(a1s, a2s)`: `a1s` is
tiled by repetition (`np.repeat`, each row `q` times), `a2s` by
concatenation (`np.tile`, the whole block `p` times), the row-wise paired
form runs once over all `p*q` pairs, and the result is reshaped to `p x q`. -/
def longest_common_substrings_product (a1s a2s : List (List (Fin 4))) :
    List (List (Int × Int × Nat)) :=
  let a1s_cp := np_repeat a1s a2s.length
  let a2s_cp := np_tile a2s a1s.length
  np_reshape2 a1s.length a2s.length
    (longest_common_substrings_pairs a1s_cp a2s_cp) (0, 0, 0)

/-- Dot product of two integer vectors (`np.dot` of a Toeplitz row with a
sequence column). -/
def dotN (l1 l2 : List Nat) : Nat :=
  (List.zipWith (fun a b => a * b) l1 l2).sum

/-- Embedding of `np.roll(l, s)`: rotate the vector right by `s` places. -/
def np_roll {α : Type} (l : List α) (s : Nat) : List α :=
  if l.length = 0 then l
  else l.drop (l.length - s % l.length) ++ l.take (l.length - s % l.length)

/-- Embedding of `create_toeplitz(seqlen, sublen)`: `seqlen - (sublen - 1)`
rows (written `seqlen + 1 - sublen`, which agrees with the Python value for
every `sublen`, including 0); row `i` is `powarr` padded with zeros to
width `seqlen` and rolled right by `i`. -/
def create_toeplitz (seqlen sublen : Nat) : List (List Nat) :=
  (List.range (seqlen + 1 - sublen)).map
    (fun i => np_roll (((List.range sublen).map (fun k => 4 ^ k)) ++
      List.replicate (seqlen - sublen) 0) i)

/-- Embedding of `DNASeqList.filter_substring(subs)`: raise unless all
forbidden substrings share one length; compute each substring's base-4
value; compute every window value of every row via the Toeplitz matrix
product; keep the rows none of whose window values equals any forbidden
value.  `seqlen` is the `DNASeqList.seqlen` field (the common row length). -/
def filter_substring (seqlen : Nat) (seqarr : List (List (Fin 4)))
    (subs : List (List Char)) : Except String (List (List (Fin 4))) :=
  if ((subs.map List.length).dedup).length ≠ 1 then
    Except.error "All substrings in subs must be equal length"
  else
    let sublen := (subs.headD []).length
    let subints := subs.map (fun sub => (sub.filterMap base2bits).map Fin.val)
    let powarr := (List.range sublen).map (fun k => 4 ^ k)
    let subvals := subints.map (fun si => dotN si powarr)
    let toeplitz := create_toeplitz seqlen sublen
    Except.ok (seqarr.filter (fun row =>
      subvals.all (fun v =>
        toeplitz.all (fun trow => decide (dotN trow (row.map Fin.val) ≠ v)))))

/-- The base-4 positional value of a window (least-significant digit first),
the quantity both `subvals` and the Toeplitz window products compute. -/
def val4 (w : List Nat) : Nat :=
  w.foldr (fun x acc => x + 4 * acc) 0

/-- Modelled from the spec's words, for comparison with `filter_substring`:
the naive per-row containment check keeps exactly the rows that contain
none of the forbidden substrings as a contiguous substring. -/
def filter_substring_naive (seqarr : List (List (Fin 4)))
    (subs : List (List Char)) : List (List (Fin 4)) :=
  seqarr.filter (fun row =>
    subs.all (fun sub => !(decide ((sub.filterMap base2bits) <:+: row))))

/-- The per-pair cumulative-energy table of
`_strongest_common_substrings_all_pairs_return_energies_and_counter`: zeros
except `energies[i1+1][j] = energies[i1][j-1] + table[(a1[i1-1] << 2) + a1[i1]]`
when `i1 >= 1`, `2 <= j <= len(a2)`, `a2[j-1] == a1[i1]` and
`a2[j-2] == a1[i1-1]` (the boolean-index algebra of the source: the update
positions are where the current match extends the previous diagonal match). -/
def sccEnergies (a1 a2 : List (Fin 4)) (temperature : ℚ) : Nat → Nat → ℚ
  | 0, _ => 0
  | i + 1, j =>
    if 1 ≤ i ∧ 2 ≤ j ∧ j ≤ a2.length ∧ i < a1.length ∧
       a2.getD (j - 1) 0 = a1.getD i 0 ∧ a2.getD (j - 2) 0 = a1.getD (i - 1) 0 then
      sccEnergies a1 a2 temperature i (j - 1) +
        calculate_loop_energies temperature false
          (4 * (a1.getD (i - 1) 0).val + (a1.getD i 0).val)
    else 0

/-- The energies table of one pair flattened in row-major order, as
`np.argmax(energies_flat, axis=1)` traverses it. -/
def energiesFlat (a1 a2 : List (Fin 4)) (temperature : ℚ) : List ℚ :=
  (List.range ((a1.length + 1) * (a2.length + 1))).map
    (fun k => sccEnergies a1 a2 temperature (k / (a2.length + 1)) (k % (a2.length + 1)))

/-- One pair of `_strongest_common_substrings_all_pairs`: argmax over the
flattened energies, length read from the counter table at that index,
start indices `unravel(k) - len`, and the energy value itself. -/
def sccPairEntry (a1 a2 : List (Fin 4)) (temperature : ℚ) : Int × Int × Nat × ℚ :=
  let n := a2.length
  let eflat := energiesFlat a1 a2 temperature
  let cflat := counterFlat a1 a2
  let k := argmaxFirst eflat
  let len := cflat.getD k 0
  (((k / (n + 1) : Nat) : Int) - len, ((k % (n + 1) : Nat) : Int) - len, len,
    eflat.getD k 0)

/-- Embedding of `_strongest_common_substrings_all_pairs(a1s, a2s,
temperature)`: the batched DP runs every row pair independently. -/
def strongest_common_substrings_all_pairs (a1s a2s : List (List (Fin 4)))
    (temperature : ℚ) : List (Int × Int × Nat × ℚ) :=
  (a1s.zip a2s).map (fun p => sccPairEntry p.1 p.2 temperature)

/-- C8: decoding the encoding of a valid DNA string returns the string. -/
theorem arr2seq_seq2arr_roundtrip (s : List Char) (h1 : 1 ≤ s.length)
    (hvalid : ∀ c ∈ s, c ∈ (['A', 'C', 'G', 'T'] : List Char)) :
    (seq2arr s).map arr2seq = some s := by
  clear h1
  induction s with
  | nil => rfl
  | cons c t ih =>
    have hc : c ∈ (['A', 'C', 'G', 'T'] : List Char) := hvalid c (by simp)
    have ih2 := ih (fun x hx => hvalid x (by simp [hx]))
    obtain ⟨arr, hmt, harr⟩ := Option.map_eq_some'.mp ih2
    have hcb : ∃ bc, base2bits c = some bc ∧ bits2base bc = c := by
      fin_cases hc <;> exact ⟨_, rfl, by decide⟩
    obtain ⟨bc, hbc, hcc⟩ := hcb
    have hmt2 : optionMap base2bits t = some arr := hmt
    have hseq : seq2arr (c :: t) = some (bc :: arr) := by
      simp [seq2arr, optionMap, hbc, hmt2]
    have harr2 : List.map bits2base arr = t := harr
    simp [hseq, arr2seq, hcc, harr2]

/-- C8 witness: the roundtrip at the concrete string "ACG". -/
theorem arr2seq_seq2arr_roundtrip_witness :
    1 ≤ (['A', 'C', 'G'] : List Char).length ∧
    (seq2arr ['A', 'C', 'G']).map arr2seq = some ['A', 'C', 'G'] :=
  ⟨by decide, arr2seq_seq2arr_roundtrip ['A', 'C', 'G'] (by decide) (by decide)⟩

/-- C6: the header written by `write_to_file` has two fields, while
`_read_from_file` unpacks exactly three; reading back a written file
therefore always fails with a `ValueError` instead of reproducing the
sequence list. -/
theorem read_header_of_written_header_fails (numseqs seqlen : Nat) :
    read_from_file_header (write_to_file_header_fields numseqs seqlen) =
      Except.error "not enough values to unpack (expected 3)" := rfl

/-- C10: the reverse-complement operation is an involution on matrices whose
entries are 2-bit codes. -/
theorem wc_arr_involution (m : List (List Nat))
    (h : ∀ row ∈ m, ∀ x ∈ row, x < 4) :
    wc_arr (wc_arr m) = m := by
  unfold wc_arr
  rw [List.map_map]
  apply List.map_congr_left ?_ |>.trans (List.map_id m)
  intro row hrow
  simp only [Function.comp_apply, List.map_reverse, List.reverse_reverse, List.map_map, id_eq]
  apply List.map_congr_left ?_ |>.trans (List.map_id row)
  intro x hx
  have hx4 : x < 4 := h row hrow x hx
  interval_cases x <;> rfl

/-- C10 witness: the involution at a concrete 2x2 code matrix. -/
theorem wc_arr_involution_witness :
    (∀ row ∈ ([[0, 1], [2, 3]] : List (List Nat)), ∀ x ∈ row, x < 4) ∧
    wc_arr (wc_arr [[0, 1], [2, 3]]) = [[0, 1], [2, 3]] :=
  ⟨by decide, wc_arr_involution [[0, 1], [2, 3]] (by decide)⟩

/-- C7: supplying two or more of the four construction sources, or none of
them, makes `DNASeqList.__init__` fail with a `ValueError`. -/
theorem init_requires_exactly_one_source (length : Option Nat)
    (num_random_seqs : Option Nat) (alphabet : List Char)
    (seqs : Option (List (List Char))) (seqarr : Option (List (List (Fin 4))))
    (filename : Option String)
    (h : 2 ≤ initSourcesSupplied length seqs seqarr filename ∨
         initSourcesSupplied length seqs seqarr filename = 0) :
    isErrorE (dnaseqlist_init length num_random_seqs alphabet seqs seqarr filename) = true := by
  cases length <;> cases seqs <;> cases seqarr <;> cases filename <;>
    simp_all [initSourcesSupplied, dnaseqlist_init, isErrorE]

/-- C7 witness: supplying both `length` and `seqs` fails. -/
theorem init_requires_exactly_one_source_witness :
    (2 ≤ initSourcesSupplied (some 1) (some [[]]) none none ∨
      initSourcesSupplied (some 1) (some [[]]) none none = 0) ∧
    isErrorE (dnaseqlist_init (some 1) none [] (some [[]]) none none) = true :=
  ⟨by decide, init_requires_exactly_one_source (some 1) none [] (some [[]]) none none
    (by decide)⟩

/-- C2 (failing input): on the two identical rows "A","A" with threshold 1,
`filter_hamming` retains both rows (the final popped row is appended without
a distance check once the working set is empty), yet their Hamming distance
is 0, below the threshold.  The shuffled remainder has a single row, so the
identity is the only permutation the shuffle can produce. -/
theorem filter_hamming_failing_input :
    filter_hamming 1 [[(0 : Fin 4)], [(0 : Fin 4)]] [[(0 : Fin 4)]] =
      [[(0 : Fin 4)], [(0 : Fin 4)]] ∧
    hamming_distance [(0 : Fin 4)] [(0 : Fin 4)] = 0 := by
  constructor
  · simp [filter_hamming, hammingGo]
  · rfl

/-- Helper: `argmaxFirst` of a list whose head dominates is 0. -/
theorem argmaxFirst_cons_zero {α : Type} [LinearOrder α] (x : α) (xs : List α)
    (h : ∀ y ∈ xs, y ≤ x) : argmaxFirst (x :: xs) = 0 := by
  simp only [argmaxFirst, List.all_eq_true, decide_eq_true_eq]
  rw [if_pos h]

/-- Helper: the pair key built from two 2-bit codes is below 16. -/
theorem pair_key_lt_16 (a b : Fin 4) : 4 * a.val + b.val < 16 := by
  omega

/-- Helper: when every stacking energy is negative, every entry of the
cumulative-energy table is nonpositive. -/
theorem sccEnergies_nonpos (a1 a2 : List (Fin 4)) (temperature : ℚ)
    (hneg : ∀ k < 16, calculate_loop_energies temperature false k < 0) :
    ∀ i j, sccEnergies a1 a2 temperature i j ≤ 0 := by
  intro i
  induction i with
  | zero => intro j; simp [sccEnergies]
  | succ i ih =>
    intro j
    rw [sccEnergies]
    split
    · have h1 := ih (j - 1)
      have h2 := hneg (4 * (a1.getD (i - 1) 0).val + (a1.getD i 0).val)
        (pair_key_lt_16 _ _)
      linarith
    · exact le_refl 0

/-- Helper: the flattened table sizes are positive. -/
theorem table_size_succ (m n : Nat) :
    (m + 1) * (n + 1) = (m * (n + 1) + n) + 1 := by ring

/-- Helper: the argmax over the flattened energies table is index 0 when
every stacking energy is negative (the table is nonpositive and its first
entry is the initial 0). -/
theorem argmaxFirst_energiesFlat (a1 a2 : List (Fin 4)) (temperature : ℚ)
    (hneg : ∀ k < 16, calculate_loop_energies temperature false k < 0) :
    argmaxFirst (energiesFlat a1 a2 temperature) = 0 := by
  unfold energiesFlat
  rw [table_size_succ, List.range_succ_eq_map, List.map_cons]
  have h0 : sccEnergies a1 a2 temperature (0 / (a2.length + 1))
      (0 % (a2.length + 1)) = 0 := by
    simp [sccEnergies]
  rw [h0]
  apply argmaxFirst_cons_zero
  intro y hy
  simp only [List.mem_map] at hy
  obtain ⟨k, _, hk⟩ := hy
  rw [← hk]
  exact sccEnergies_nonpos a1 a2 temperature hneg _ _

/-- Helper: entry 0 of the flattened counter table is 0. -/
theorem counterFlat_getD_zero (a1 a2 : List (Fin 4)) :
    (counterFlat a1 a2).getD 0 0 = 0 := by
  unfold counterFlat
  rw [table_size_succ, List.range_succ_eq_map, List.map_cons, List.getD_cons_zero]
  simp [lcsCounter]

/-- Helper: entry 0 of the flattened energies table is 0. -/
theorem energiesFlat_getD_zero (a1 a2 : List (Fin 4)) (temperature : ℚ) :
    (energiesFlat a1 a2 temperature).getD 0 0 = 0 := by
  unfold energiesFlat
  rw [table_size_succ, List.range_succ_eq_map, List.map_cons, List.getD_cons_zero]
  simp [sccEnergies]

/-- Helper: with all stacking energies negative, every per-pair result of the
energy-weighted matcher is the zero quadruple. -/
theorem sccPairEntry_eq_zero (a1 a2 : List (Fin 4)) (temperature : ℚ)
    (hneg : ∀ k < 16, calculate_loop_energies temperature false k < 0) :
    sccPairEntry a1 a2 temperature = (0, 0, 0, 0) := by
  simp only [sccPairEntry]
  rw [argmaxFirst_energiesFlat a1 a2 temperature hneg, counterFlat_getD_zero,
    energiesFlat_getD_zero]
  simp

/-- C9: at any temperature where all 16 stacking free energies are negative,
the energy-weighted all-pairs matcher reports `(0, 0, 0, 0.0)` for every
pair: every accumulated window energy is negative, so the argmax over the
energies table selects the initial zero entry and no matching window is
ever reported. -/
theorem strongest_common_substrings_always_zero (a1s a2s : List (List (Fin 4)))
    (temperature : ℚ)
    (hneg : ∀ k < 16, calculate_loop_energies temperature false k < 0)
    (hlen : a1s.length = a2s.length) :
    strongest_common_substrings_all_pairs a1s a2s temperature =
      List.replicate a1s.length ((0 : Int), (0 : Int), (0 : Nat), (0 : ℚ)) := by
  rw [List.eq_replicate_iff]
  constructor
  · simp [strongest_common_substrings_all_pairs, hlen]
  · intro b hb
    simp only [strongest_common_substrings_all_pairs, List.mem_map] at hb
    obtain ⟨p, _, hp⟩ := hb
    rw [← hp]
    exact sccPairEntry_eq_zero p.1 p.2 temperature hneg

/-- C9 witness: at 37 degrees Celsius all 16 stacking energies are negative,
and the matcher on the concrete batches [["A"]] vs [["C"]] reports the zero
quadruple. -/
theorem strongest_common_substrings_always_zero_witness :
    (∀ k < 16, calculate_loop_energies 37 false k < 0) ∧
    strongest_common_substrings_all_pairs [[(0 : Fin 4)]] [[(1 : Fin 4)]] 37 =
      List.replicate 1 ((0 : Int), (0 : Int), (0 : Nat), (0 : ℚ)) :=
  ⟨fun k hk => by interval_cases k <;> norm_num [calculate_loop_energies, dH, dS],
   strongest_common_substrings_always_zero [[(0 : Fin 4)]] [[(1 : Fin 4)]] 37
    (fun k hk => by interval_cases k <;> norm_num [calculate_loop_energies, dH, dS]) rfl⟩

/-- Helper: encoding inverts decoding on single codes. -/
theorem base2bits_bits2base (b : Fin 4) : base2bits (bits2base b) = some b := by
  revert b
  decide

/-- Helper: `optionMap` of an everywhere-successful function is the plain map. -/
theorem optionMap_eq_some_map {α β : Type} (f : α → Option β) (g : α → β) :
    ∀ l : List α, (∀ a ∈ l, f a = some (g a)) → optionMap f l = some (l.map g)
  | [], _ => rfl
  | a :: l, h => by
    have ha := h a (by simp)
    have hl := optionMap_eq_some_map f g l (fun x hx => h x (by simp [hx]))
    simp [optionMap, ha, hl]

/-- Helper: zipping a list's shifted slices (`l[:-1]` with `l[1:]`) visits
exactly the adjacent pairs `(l[i], l[i+1])` for `i in range(len(l)-1)`. -/
theorem zipWith_adjacent {β : Type} (f : Fin 4 → Fin 4 → β) :
    ∀ l : List (Fin 4), List.zipWith f l.dropLast (l.drop 1) =
      (List.range (l.length - 1)).map (fun i => f (l.getD i 0) (l.getD (i + 1) 0))
  | [] => by simp
  | [a] => by simp
  | a :: b :: t => by
    have ih := zipWith_adjacent f (b :: t)
    have hlen : (a :: b :: t).length - 1 = t.length + 1 := by simp
    rw [hlen, List.range_succ_eq_map, List.map_cons, List.map_map]
    have h1 : (a :: b :: t).dropLast = a :: (b :: t).dropLast := by simp
    have h2 : (a :: b :: t).drop 1 = b :: t := by simp
    have h3 : (b :: t).drop 1 = t := by simp
    rw [h3] at ih
    rw [h1, h2, List.zipWith_cons_cons, ih]
    have hlen2 : (b :: t).length - 1 = t.length := by simp
    rw [hlen2]
    congr 1

/-- C1: for every code matrix and every row index, the batched duplex-energy
computation returns for that row exactly the value of the scalar single-row
computation on the corresponding string (exact equality of rationals). -/
theorem calculate_wc_energies_matches_wcenergy
    (m : List (List (Fin 4))) (temperature : ℚ) (i : Nat)
    (hi : i < m.length) (hcols : 2 ≤ (m.getD i []).length) :
    wcenergy (arr2seq (m.getD i [])) temperature false =
      some ((calculate_wc_energies m temperature false).getD i 0) := by
  clear hcols
  set row := m.getD i [] with hrow
  have hlen : i < (calculate_wc_energies m temperature false).length := by
    simp [calculate_wc_energies, hi]
  have hrow2 : row = m[i] := List.getD_eq_getElem m [] hi
  have hrhs : (calculate_wc_energies m temperature false).getD i 0 =
      (List.zipWith
        (fun a b => calculate_loop_energies temperature false (4 * a.val + b.val))
        row.dropLast (row.drop 1)).sum := by
    rw [List.getD_eq_getElem _ _ hlen]
    simp only [calculate_wc_energies, List.getElem_map]
    rw [← hrow2]
  have hchars : ∀ j, j < row.length → (arr2seq row).getD j ' ' = bits2base (row.getD j 0) := by
    intro j hj
    simp only [arr2seq]
    rw [List.getD_eq_getElem _ _ (by simpa using hj), List.getElem_map,
      List.getD_eq_getElem _ _ hj]
  have hlen2 : (arr2seq row).length = row.length := by simp [arr2seq]
  unfold wcenergy
  rw [hlen2]
  rw [optionMap_eq_some_map _
    (fun j => calculate_loop_energies temperature false
      (4 * (row.getD j 0).val + (row.getD (j + 1) 0).val)) _ ?_]
  · rw [Option.map_some']
    rw [hrhs, zipWith_adjacent]
  · intro j hj
    simp only [List.mem_range] at hj
    rw [hchars j (by omega), hchars (j + 1) (by omega)]
    simp [calculate_loop_energies_dict, base2bits_bits2base]

/-- C1 witness: the agreement at the concrete matrix [["AA"]], row 0. -/
theorem calculate_wc_energies_matches_wcenergy_witness :
    0 < ([[(0 : Fin 4), (0 : Fin 4)]] : List (List (Fin 4))).length ∧
    2 ≤ (([[(0 : Fin 4), (0 : Fin 4)]] : List (List (Fin 4))).getD 0 []).length ∧
    wcenergy (arr2seq (([[(0 : Fin 4), (0 : Fin 4)]] : List (List (Fin 4))).getD 0 []))
        37 false =
      some ((calculate_wc_energies [[(0 : Fin 4), (0 : Fin 4)]] 37 false).getD 0 0) :=
  ⟨by decide, by decide,
   calculate_wc_energies_matches_wcenergy [[(0 : Fin 4), (0 : Fin 4)]] 37 0
    (by decide) (by decide)⟩

/-- Helper: every element of a list is bounded by the value at the argmax
index. -/
theorem getD_argmaxFirst_max {α : Type} [LinearOrder α] (d : α) :
    ∀ l : List α, ∀ y ∈ l, y ≤ l.getD (argmaxFirst l) d
  | [], y, hy => absurd hy (List.not_mem_nil y)
  | x :: xs, y, hy => by
    rw [argmaxFirst]
    by_cases hall : xs.all (fun z => decide (z ≤ x)) = true
    · rw [if_pos hall, List.getD_cons_zero]
      rcases List.mem_cons.mp hy with h | h
      · exact h ▸ le_refl x
      · exact of_decide_eq_true (List.all_eq_true.mp hall y h)
    · rw [if_neg hall, List.getD_cons_succ]
      rcases List.mem_cons.mp hy with h | h
      · simp only [List.all_eq_true, decide_eq_true_eq] at hall
        push_neg at hall
        obtain ⟨z, hz, hzx⟩ := hall
        have hx : x < z := hzx
        exact h ▸ le_of_lt (lt_of_lt_of_le hx (getD_argmaxFirst_max d xs z hz))
      · exact getD_argmaxFirst_max d xs y h

/-- Helper: the argmax index of a nonempty list is in range. -/
theorem argmaxFirst_lt_length {α : Type} [LinearOrder α] :
    ∀ l : List α, l ≠ [] → argmaxFirst l < l.length
  | [], h => absurd rfl h
  | x :: xs, _ => by
    rw [argmaxFirst]
    split
    · simp
    · next hall =>
      have hxs : xs ≠ [] := by
        intro h
        subst h
        simp at hall
      have := argmaxFirst_lt_length xs hxs
      simpa using Nat.succ_lt_succ this

/-- Helper: length of the flattened counter table. -/
theorem counterFlat_length (a1 a2 : List (Fin 4)) :
    (counterFlat a1 a2).length = (a1.length + 1) * (a2.length + 1) := by
  simp [counterFlat]

/-- Helper: in-range entries of the flattened counter table. -/
theorem counterFlat_getD (a1 a2 : List (Fin 4)) (k : Nat)
    (hk : k < (a1.length + 1) * (a2.length + 1)) :
    (counterFlat a1 a2).getD k 0 =
      lcsCounter a1 a2 (k / (a2.length + 1)) (k % (a2.length + 1)) := by
  unfold counterFlat
  rw [List.getD_eq_getElem _ _ (by simpa using hk)]
  simp

/-- Helper: the first row of the counter table is zero. -/
theorem lcsCounter_row_zero (a1 a2 : List (Fin 4)) (j : Nat) :
    lcsCounter a1 a2 0 j = 0 := by
  simp [lcsCounter]

/-- Helper: the flattened counter table is nonempty. -/
theorem counterFlat_ne_nil (a1 a2 : List (Fin 4)) : counterFlat a1 a2 ≠ [] := by
  apply List.ne_nil_of_length_pos
  rw [counterFlat_length]
  positivity

/-- Helper: when the maximum of the counter table is zero, the argmax is the
first entry. -/
theorem argmaxFirst_counterFlat_zero (a1 a2 : List (Fin 4))
    (h : (counterFlat a1 a2).getD (argmaxFirst (counterFlat a1 a2)) 0 = 0) :
    argmaxFirst (counterFlat a1 a2) = 0 := by
  have hall : ∀ y ∈ counterFlat a1 a2, y = 0 := by
    intro y hy
    have := getD_argmaxFirst_max 0 (counterFlat a1 a2) y hy
    omega
  unfold counterFlat at hall ⊢
  rw [table_size_succ, List.range_succ_eq_map, List.map_cons]
  apply argmaxFirst_cons_zero
  intro y hy
  rw [List.map_map, List.mem_map] at hy
  obtain ⟨k, hkmem, hkval⟩ := hy
  have hy2 : y ∈ (List.range ((a1.length + 1) * (a2.length + 1))).map
      (fun k => lcsCounter a1 a2 (k / (a2.length + 1)) (k % (a2.length + 1))) := by
    refine List.mem_map.mpr ⟨k + 1, List.mem_range.mpr ?_, hkval⟩
    rw [table_size_succ]
    simpa using List.mem_range.mp hkmem
  rw [hall y hy2]
  exact Nat.zero_le _

/-- Helper: when the maximum of the counter table is positive, the argmax
lies beyond row 0 of the table. -/
theorem argmaxFirst_counterFlat_pos (a1 a2 : List (Fin 4))
    (h : 0 < (counterFlat a1 a2).getD (argmaxFirst (counterFlat a1 a2)) 0) :
    a2.length + 1 ≤ argmaxFirst (counterFlat a1 a2) := by
  by_contra hlt
  push_neg at hlt
  have hk : argmaxFirst (counterFlat a1 a2) < (a1.length + 1) * (a2.length + 1) := by
    have := argmaxFirst_lt_length (counterFlat a1 a2) (counterFlat_ne_nil a1 a2)
    rwa [counterFlat_length] at this
  rw [counterFlat_getD _ _ _ hk, Nat.div_eq_of_lt hlt, lcsCounter_row_zero] at h
  exact absurd h (lt_irrefl 0)

/-- Helper: one pair of the batched matcher against the single-pair matcher:
they agree exactly when a common substring exists, and report the distinct
sentinels `(0,0,0)` versus `(-1,-1,0)` when none does. -/
theorem lcsPairEntry_eq_single (a1 a2 : List (Fin 4)) :
    lcsPairEntry a1 a2 =
      (if 0 < (longest_common_substring a1 a2).2.2
       then longest_common_substring a1 a2 else ((0 : Int), (0 : Int), (0 : Nat))) := by
  simp only [lcsPairEntry, longest_common_substring]
  rcases Nat.eq_zero_or_pos
      ((counterFlat a1 a2).getD (argmaxFirst (counterFlat a1 a2)) 0) with hM | hM
  · have hk0 : argmaxFirst (counterFlat a1 a2) = 0 :=
      argmaxFirst_counterFlat_zero a1 a2 hM
    rw [hk0]
    rw [hk0] at hM
    have hM2 : (counterFlat a1 a2)[0]?.getD 0 = 0 := by
      simpa [List.getD] using hM
    simp [Nat.zero_div, Nat.zero_mod, hM, hM2]
  · have hge := argmaxFirst_counterFlat_pos a1 a2 hM
    have hpos : 0 < argmaxFirst (counterFlat a1 a2) / (a2.length + 1) :=
      Nat.div_pos hge (by omega)
    rw [if_pos hpos]
    simp only
    rw [if_pos hM]

/-- Helper: length of `np.repeat`. -/
theorem np_repeat_length {α : Type} (l : List α) (n : Nat) :
    (np_repeat l n).length = l.length * n := by
  induction l with
  | nil => simp [np_repeat]
  | cons x xs ih =>
    simp only [np_repeat, List.flatMap_cons, List.length_append,
      List.length_replicate, List.length_cons] at *
    rw [ih, Nat.succ_mul]
    omega

/-- Helper: indexing `np.repeat`: entry `i*n + j` (with `j < n`) is entry `i`
of the original list. -/
theorem np_repeat_getD {α : Type} (d : α) (n : Nat) :
    ∀ (l : List α) (i j : Nat), i < l.length → j < n →
      (np_repeat l n).getD (i * n + j) d = l.getD i d
  | [], i, _, hi, _ => absurd hi (by simp)
  | x :: xs, 0, j, _, hj => by
    simp only [np_repeat, List.flatMap_cons]
    rw [Nat.zero_mul, Nat.zero_add,
      List.getD_append _ _ _ _ (by simpa using hj),
      List.getD_eq_getElem _ _ (by simpa using hj), List.getElem_replicate,
      List.getD_cons_zero]
  | x :: xs, i + 1, j, hi, hj => by
    simp only [np_repeat, List.flatMap_cons]
    have hidx : (i + 1) * n + j = n + (i * n + j) := by ring
    rw [hidx, List.getD_append_right _ _ _ _ (by simp),
      List.getD_cons_succ]
    have h2 : n + (i * n + j) - (List.replicate n x).length = i * n + j := by simp
    rw [h2]
    exact np_repeat_getD d n xs i j (by simpa using hi) hj

/-- Helper: length of `np.tile`. -/
theorem np_tile_length {α : Type} (l : List α) (n : Nat) :
    (np_tile l n).length = n * l.length := by
  induction n with
  | zero => simp [np_tile]
  | succ n ih =>
    simp only [np_tile, List.replicate_succ, List.flatten_cons, List.length_append] at *
    rw [ih, Nat.succ_mul]
    omega

/-- Helper: indexing `np.tile`: entry `k` is entry `k mod len` of the
original list. -/
theorem np_tile_getD {α : Type} (d : α) (l : List α) :
    ∀ (n k : Nat), k < n * l.length → (np_tile l n).getD k d = l.getD (k % l.length) d
  | 0, k, hk => absurd hk (by simp)
  | n + 1, k, hk => by
    have hsplit : np_tile l (n + 1) = l ++ np_tile l n := by
      simp [np_tile, List.replicate_succ]
    rw [hsplit]
    by_cases hkl : k < l.length
    · rw [List.getD_append _ _ _ _ hkl, Nat.mod_eq_of_lt hkl]
    · push_neg at hkl
      rw [List.getD_append_right _ _ _ _ hkl]
      have hk2 : k - l.length < n * l.length := by
        rw [Nat.succ_mul] at hk
        omega
      rw [np_tile_getD d l n (k - l.length) hk2]
      congr 1
      exact (Nat.mod_eq_sub_mod hkl).symm

/-- Helper: indexing the batched pairs form: entry `k` is the single-pair
entry of the `k`-th rows. -/
theorem lcs_pairs_getD (a1s a2s : List (List (Fin 4))) (k : Nat)
    (hk : k < a1s.length) (hk2 : k < a2s.length) :
    (longest_common_substrings_pairs a1s a2s).getD k (0, 0, 0) =
      lcsPairEntry (a1s.getD k []) (a2s.getD k []) := by
  unfold longest_common_substrings_pairs
  rw [List.getD_eq_getElem _ _ (by simp only [List.length_map, List.length_zip]; omega)]
  rw [List.getElem_map, List.getElem_zip]
  rw [List.getD_eq_getElem _ _ hk, List.getD_eq_getElem _ _ hk2]

/-- Helper: entry `[i][j]` of the cross-product matcher is the single-pair
batched entry on rows `A[i]`, `B[j]` (correctness of the repeat/tile/reshape
plumbing). -/
theorem lcs_product_entry (A B : List (List (Fin 4))) (i j : Nat)
    (hi : i < A.length) (hj : j < B.length) :
    ((longest_common_substrings_product A B).getD i []).getD j (0, 0, 0) =
      lcsPairEntry (A.getD i []) (B.getD j []) := by
  have houter : (longest_common_substrings_product A B).getD i [] =
      (List.range B.length).map
        (fun j => (longest_common_substrings_pairs
          (np_repeat A B.length) (np_tile B A.length)).getD (i * B.length + j)
          (0, 0, 0)) := by
    unfold longest_common_substrings_product np_reshape2
    simp only
    rw [List.getD_eq_getElem _ _ (by simpa using hi), List.getElem_map, List.getElem_range]
  rw [houter]
  rw [List.getD_eq_getElem _ _ (by simpa using hj), List.getElem_map, List.getElem_range]
  have hidx : i * B.length + j < A.length * B.length := by
    calc i * B.length + j < i * B.length + B.length := by omega
    _ = (i + 1) * B.length := by ring
    _ ≤ A.length * B.length := Nat.mul_le_mul_right _ hi
  rw [lcs_pairs_getD _ _ _ (by rw [np_repeat_length]; omega)
    (by rw [np_tile_length]; omega)]
  rw [np_repeat_getD [] B.length A i j hi hj]
  rw [np_tile_getD [] B A.length (i * B.length + j) hidx]
  rw [Nat.mul_add_mod', Nat.mod_eq_of_lt hj]

/-- C3 counterexample: on the one-row matrices A = ["A"], B = ["C"] (no
common substring), the cross-product entry `[0][0]` is the sentinel
`(0, 0, 0)` while the single-pair matcher returns `(-1, -1, 0)`, so the two
results differ. -/
theorem lcs_product_single_sentinel_cx :
    longest_common_substrings_product [[(0 : Fin 4)]] [[(1 : Fin 4)]] =
      [[((0 : Int), (0 : Int), (0 : Nat))]] ∧
    longest_common_substring [(0 : Fin 4)] [(1 : Fin 4)] =
      ((-1 : Int), (-1 : Int), (0 : Nat)) ∧
    (((0 : Int), (0 : Int), (0 : Nat)) : Int × Int × Nat) ≠
      ((-1 : Int), (-1 : Int), (0 : Nat)) := by
  refine ⟨by decide, by decide, by decide⟩

/-- C3 amended: entry `[i][j]` of the cross-product matcher equals the
single-pair matcher on `(A[i], B[j])` whenever a common substring exists
(reported length positive); when none exists, the product form reports the
sentinel `(0, 0, 0)` while the single-pair form reports `(-1, -1, 0)`. -/
theorem lcs_product_matches_single (A B : List (List (Fin 4))) (i j : Nat)
    (hi : i < A.length) (hj : j < B.length) :
    ((longest_common_substrings_product A B).getD i []).getD j (0, 0, 0) =
      (if 0 < (longest_common_substring (A.getD i []) (B.getD j [])).2.2
       then longest_common_substring (A.getD i []) (B.getD j [])
       else ((0 : Int), (0 : Int), (0 : Nat))) := by
  rw [lcs_product_entry A B i j hi hj, lcsPairEntry_eq_single]

/-- C3 witness: the amended agreement at the concrete matrices A = B = ["A"]
(where the common substring "A" exists and both sides report it). -/
theorem lcs_product_matches_single_witness :
    0 < ([[(0 : Fin 4)]] : List (List (Fin 4))).length ∧
    ((longest_common_substrings_product [[(0 : Fin 4)]] [[(0 : Fin 4)]]).getD 0 []).getD 0
        (0, 0, 0) =
      (if 0 < (longest_common_substring
          (([[(0 : Fin 4)]] : List (List (Fin 4))).getD 0 [])
          (([[(0 : Fin 4)]] : List (List (Fin 4))).getD 0 [])).2.2
       then longest_common_substring
          (([[(0 : Fin 4)]] : List (List (Fin 4))).getD 0 [])
          (([[(0 : Fin 4)]] : List (List (Fin 4))).getD 0 [])
       else ((0 : Int), (0 : Int), (0 : Nat))) :=
  ⟨by decide, lcs_product_matches_single [[(0 : Fin 4)]] [[(0 : Fin 4)]] 0 0
    (by decide) (by decide)⟩

/-- Helper: the enumeration column at row `r` holds the base indexed by the
`c`-th most-significant base-`k` digit of `r`. -/
theorem make_all_seqs_column_getD (bb : List (Fin 4)) (L c r : Nat)
    (hk : 0 < bb.length) (hc : c < L) (hr : r < bb.length ^ L) :
    (make_all_seqs_column bb L c).getD r 0 = bb.getD (msdigit bb.length L r c) 0 := by
  have hApos : 0 < bb.length ^ (L - 1 - c) := Nat.pos_pow_of_pos _ hk
  have hlenr : (np_repeat bb (bb.length ^ (L - 1 - c))).length =
      bb.length * bb.length ^ (L - 1 - c) := by
    rw [np_repeat_length]
  have hCA : bb.length ^ c * (bb.length * bb.length ^ (L - 1 - c)) = bb.length ^ L := by
    rw [← pow_succ', ← pow_add]
    congr 1
    omega
  unfold make_all_seqs_column
  rw [np_tile_getD 0 _ _ r (by rw [hlenr, hCA]; exact hr), hlenr]
  have hmlt : r % (bb.length * bb.length ^ (L - 1 - c)) <
      bb.length * bb.length ^ (L - 1 - c) :=
    Nat.mod_lt _ (by positivity)
  have hdiv : r % (bb.length * bb.length ^ (L - 1 - c)) / bb.length ^ (L - 1 - c) <
      bb.length := by
    rw [Nat.div_lt_iff_lt_mul hApos]
    exact hmlt
  have hmod : r % (bb.length * bb.length ^ (L - 1 - c)) % bb.length ^ (L - 1 - c) <
      bb.length ^ (L - 1 - c) := Nat.mod_lt _ hApos
  have hdecomp : r % (bb.length * bb.length ^ (L - 1 - c)) =
      r % (bb.length * bb.length ^ (L - 1 - c)) / bb.length ^ (L - 1 - c) *
        bb.length ^ (L - 1 - c) +
      r % (bb.length * bb.length ^ (L - 1 - c)) % bb.length ^ (L - 1 - c) :=
    (Nat.div_add_mod' _ _).symm
  rw [hdecomp, np_repeat_getD 0 _ bb _ _ hdiv hmod]
  congr 1
  rw [Nat.mul_comm bb.length (bb.length ^ (L - 1 - c)), Nat.mod_mul_right_div_self]
  rfl

/-- Helper: row `r` of the enumeration matrix is the base-`k` digit expansion
of `r`, most significant digit first, mapped through the base list. -/
theorem make_all_seqs_arr_getD (bb : List (Fin 4)) (L r : Nat)
    (hk : 0 < bb.length) (hr : r < bb.length ^ L) :
    (make_all_seqs_arr bb L).getD r [] =
      (List.range L).map (fun c => bb.getD (msdigit bb.length L r c) 0) := by
  unfold make_all_seqs_arr
  rw [List.getD_eq_getElem _ _ (by simpa using hr), List.getElem_map, List.getElem_range]
  apply List.map_congr_left
  intro c hc
  exact make_all_seqs_column_getD bb L c r hk (List.mem_range.mp hc) hr

/-- Helper: the later digits of `r` with `L + 1` digits are the digits of
`r mod k^L` with `L` digits. -/
theorem msdigit_mod (k L r c : Nat) (hk : 0 < k) (hc : c < L) :
    msdigit k (L + 1) r (c + 1) = msdigit k L (r % k ^ L) c := by
  unfold msdigit
  have hsplit : L + 1 - 1 - (c + 1) = L - 1 - c := by omega
  rw [hsplit]
  have hLe : L - 1 - c + (L - (L - 1 - c)) = L := by omega
  have hpow : k ^ L = k ^ (L - 1 - c) * k ^ (L - (L - 1 - c)) := by
    rw [← pow_add, hLe]
  rw [hpow, Nat.mod_mul_right_div_self]
  have hdvd : k ∣ k ^ (L - (L - 1 - c)) := dvd_pow_self k (by omega)
  rw [Nat.mod_mod_of_dvd _ hdvd]

/-- Helper: the leading digit of `r < k^(L+1)` is `r / k^L`. -/
theorem msdigit_top (k L r : Nat) (hk : 0 < k) (hr : r < k ^ (L + 1)) :
    msdigit k (L + 1) r 0 = r / k ^ L := by
  unfold msdigit
  have h1 : L + 1 - 1 - 0 = L := by omega
  rw [h1]
  apply Nat.mod_eq_of_lt
  rw [Nat.div_lt_iff_lt_mul (Nat.pos_pow_of_pos _ hk)]
  calc r < k ^ (L + 1) := hr
  _ = k * k ^ L := by rw [pow_succ]; ring

/-- Helper: two numbers below `k^L` in increasing order have a first
most-significant digit where they differ, and there the smaller number has
the smaller digit. -/
theorem msdigit_first_diff (k : Nat) (hk : 0 < k) :
    ∀ L r s, r < s → s < k ^ L →
      ∃ c, c < L ∧ (∀ e, e < c → msdigit k L r e = msdigit k L s e) ∧
        msdigit k L r c < msdigit k L s c
  | 0, r, s, hrs, hs => absurd (Nat.lt_of_lt_of_le hrs (Nat.lt_succ_iff.mp hs)) (Nat.not_lt_zero r)
  | L + 1, r, s, hrs, hs => by
    have hr : r < k ^ (L + 1) := lt_trans hrs hs
    have hqle : r / k ^ L ≤ s / k ^ L := Nat.div_le_div_right (le_of_lt hrs)
    rcases lt_or_eq_of_le hqle with hq | hq
    · refine ⟨0, Nat.succ_pos L, fun e he => absurd he (Nat.not_lt_zero e), ?_⟩
      rw [msdigit_top k L r hk hr, msdigit_top k L s hk hs]
      exact hq
    · have hdr := Nat.div_add_mod r (k ^ L)
      have hds := Nat.div_add_mod s (k ^ L)
      rw [hq] at hdr
      have hlt2 : r % k ^ L < s % k ^ L := by
        omega
      have hs2 : s % k ^ L < k ^ L := Nat.mod_lt _ (Nat.pos_pow_of_pos _ hk)
      obtain ⟨c, hc, heq, hlt⟩ := msdigit_first_diff k hk L (r % k ^ L) (s % k ^ L) hlt2 hs2
      refine ⟨c + 1, Nat.succ_lt_succ hc, ?_, ?_⟩
      · intro e he
        cases e with
        | zero =>
          rw [msdigit_top k L r hk hr, msdigit_top k L s hk hs, hq]
        | succ e2 =>
          have he2 : e2 < c := by omega
          have he2L : e2 < L := lt_trans he2 hc
          rw [msdigit_mod k L r e2 hk he2L, msdigit_mod k L s e2 hk he2L]
          exact heq e2 he2
      · rw [msdigit_mod k L r c hk hc, msdigit_mod k L s c hk hc]
        exact hlt

/-- Helper: two maps over `range L` that agree before position `c < L` and
differ strictly at `c` are in strict lexicographic order. -/
theorem lex_map_range :
    ∀ (c L : Nat) (f g : Nat → Fin 4), c < L → (∀ e, e < c → f e = g e) → f c < g c →
      List.Lex (· < ·) ((List.range L).map f) ((List.range L).map g)
  | c, 0, _, _, hc, _, _ => absurd hc (Nat.not_lt_zero c)
  | 0, L + 1, f, g, _, _, hlt => by
    rw [List.range_succ_eq_map, List.map_cons, List.map_cons]
    exact List.Lex.rel hlt
  | c + 1, L + 1, f, g, hc, heq, hlt => by
    rw [List.range_succ_eq_map, List.map_cons, List.map_cons, List.map_map, List.map_map]
    have h0 : f 0 = g 0 := heq 0 (Nat.succ_pos c)
    rw [h0]
    apply List.Lex.cons
    exact lex_map_range c L (fun e => f (e + 1)) (fun e => g (e + 1))
      (Nat.lt_of_succ_lt_succ hc)
      (fun e he => heq (e + 1) (Nat.succ_lt_succ he))
      hlt

/-- Helper: strict lexicographic order on lists is irreflexive. -/
theorem lex_lt_irrefl : ∀ l : List (Fin 4), ¬ List.Lex (· < ·) l l
  | [], h => by cases h
  | a :: t, h => by
    cases h with
    | rel hr => exact absurd hr (lt_irrefl a)
    | cons ht => exact lex_lt_irrefl t ht

/-- Helper: the enumeration matrix over a strictly increasing base list is
strictly increasing in lexicographic order. -/
theorem make_all_seqs_arr_sorted (bb : List (Fin 4)) (L : Nat)
    (hb : List.Pairwise (· < ·) bb) (hk : 0 < bb.length) :
    List.Pairwise (List.Lex (· < ·)) (make_all_seqs_arr bb L) := by
  rw [List.pairwise_iff_getElem]
  intro i j hi hj hij
  have hi2 : i < bb.length ^ L := by simpa [make_all_seqs_arr] using hi
  have hj2 : j < bb.length ^ L := by simpa [make_all_seqs_arr] using hj
  have hrowi : (make_all_seqs_arr bb L)[i] =
      (List.range L).map (fun c => bb.getD (msdigit bb.length L i c) 0) := by
    rw [← List.getD_eq_getElem _ [] hi]
    exact make_all_seqs_arr_getD bb L i hk hi2
  have hrowj : (make_all_seqs_arr bb L)[j] =
      (List.range L).map (fun c => bb.getD (msdigit bb.length L j c) 0) := by
    rw [← List.getD_eq_getElem _ [] hj]
    exact make_all_seqs_arr_getD bb L j hk hj2
  rw [hrowi, hrowj]
  obtain ⟨c, hc, heq, hlt⟩ := msdigit_first_diff bb.length hk L i j hij hj2
  apply lex_map_range c L _ _ hc
  · intro e he
    rw [heq e he]
  · have hdi : msdigit bb.length L i c < bb.length := Nat.mod_lt _ hk
    have hdj : msdigit bb.length L j c < bb.length := Nat.mod_lt _ hk
    rw [List.getD_eq_getElem _ _ hdi, List.getD_eq_getElem _ _ hdj]
    exact (List.pairwise_iff_getElem.mp hb) _ _ hdi hdj hlt

/-- Helper: `filterMap base2bits` keeps every valid character. -/
theorem filterMap_base2bits_length (bases : List Char)
    (hvalid : ∀ c ∈ bases, c ∈ (['A', 'C', 'G', 'T'] : List Char)) :
    (bases.filterMap base2bits).length = bases.length := by
  induction bases with
  | nil => rfl
  | cons c t ih =>
    have hc := hvalid c (by simp)
    have h2 : ∃ b, base2bits c = some b := by
      fin_cases hc <;> exact ⟨_, rfl⟩
    obtain ⟨b, hb⟩ := h2
    simp [List.filterMap_cons, hb, ih (fun x hx => hvalid x (by simp [hx]))]

/-- C4 counterexample: for the alphabet collection ('T', 'A') (two distinct
valid symbols) and length 1, the construction succeeds but returns the rows
[[3], [0]], which are not in strictly increasing lexicographic code order:
the column construction uses the bases in the collection's iteration order,
not in sorted code order. -/
theorem make_array_unsorted_cx :
    make_array_with_all_dna_seqs 1 ['T', 'A'] =
      Except.ok [[(3 : Fin 4)], [(0 : Fin 4)]] ∧
    ¬ List.Pairwise (List.Lex (· < ·)) [[(3 : Fin 4)], [(0 : Fin 4)]] := by
  constructor
  · rfl
  · decide

/-- Helper: the base-to-code map is injective on the four canonical symbols. -/
theorem base2bits_inj_on_valid (c d : Char)
    (hc : c ∈ (['A', 'C', 'G', 'T'] : List Char))
    (hd : d ∈ (['A', 'C', 'G', 'T'] : List Char)) :
    base2bits c = base2bits d → c = d := by
  fin_cases hc <;> fin_cases hd <;> decide

/-- Helper: `filterMap base2bits` preserves distinctness on valid symbols. -/
theorem filterMap_base2bits_nodup (bases : List Char)
    (hvalid : ∀ c ∈ bases, c ∈ (['A', 'C', 'G', 'T'] : List Char))
    (hnodup : bases.Nodup) :
    (bases.filterMap base2bits).Nodup := by
  induction bases with
  | nil => exact List.nodup_nil
  | cons c t ih =>
    have hc := hvalid c (by simp)
    obtain ⟨b, hb⟩ : ∃ b, base2bits c = some b := by
      fin_cases hc <;> exact ⟨_, rfl⟩
    have hnd := List.nodup_cons.mp hnodup
    rw [List.filterMap_cons_some hb]
    rw [List.nodup_cons]
    refine ⟨?_, ih (fun x hx => hvalid x (by simp [hx])) hnd.2⟩
    intro hmem
    obtain ⟨d, hd, hdb⟩ := List.mem_filterMap.mp hmem
    have hcd : c = d :=
      base2bits_inj_on_valid c d hc (hvalid d (by simp [hd])) (by rw [hb, hdb])
    exact hnd.1 (hcd ▸ hd)

/-- Helper: the enumeration rows over a distinct base list are pairwise
distinct (two row indices differ in some base-`k` digit, and distinct bases
make the rows differ at that column). -/
theorem make_all_seqs_arr_nodup (bb : List (Fin 4)) (L : Nat)
    (hb : bb.Nodup) (hk : 0 < bb.length) :
    (make_all_seqs_arr bb L).Nodup := by
  have hpw : List.Pairwise (· ≠ ·) (make_all_seqs_arr bb L) := by
    rw [List.pairwise_iff_getElem]
    intro i j hi hj hij
    have hi2 : i < bb.length ^ L := by simpa [make_all_seqs_arr] using hi
    have hj2 : j < bb.length ^ L := by simpa [make_all_seqs_arr] using hj
    have hrowi : (make_all_seqs_arr bb L)[i] =
        (List.range L).map (fun c => bb.getD (msdigit bb.length L i c) 0) := by
      rw [← List.getD_eq_getElem _ [] hi]
      exact make_all_seqs_arr_getD bb L i hk hi2
    have hrowj : (make_all_seqs_arr bb L)[j] =
        (List.range L).map (fun c => bb.getD (msdigit bb.length L j c) 0) := by
      rw [← List.getD_eq_getElem _ [] hj]
      exact make_all_seqs_arr_getD bb L j hk hj2
    rw [hrowi, hrowj]
    obtain ⟨c, hc, _, hlt⟩ := msdigit_first_diff bb.length hk L i j hij hj2
    intro hEq
    have hcc := congrArg (fun l => l.getD c (0 : Fin 4)) hEq
    simp only at hcc
    have hgi : (List.map (fun c2 => bb.getD (msdigit bb.length L i c2) 0)
        (List.range L)).getD c (0 : Fin 4) = bb.getD (msdigit bb.length L i c) 0 := by
      rw [List.getD_eq_getElem _ _ (by simpa using hc), List.getElem_map,
        List.getElem_range]
    have hgj : (List.map (fun c2 => bb.getD (msdigit bb.length L j c2) 0)
        (List.range L)).getD c (0 : Fin 4) = bb.getD (msdigit bb.length L j c) 0 := by
      rw [List.getD_eq_getElem _ _ (by simpa using hc), List.getElem_map,
        List.getElem_range]
    rw [hgi, hgj] at hcc
    have hdi : msdigit bb.length L i c < bb.length := Nat.mod_lt _ hk
    have hdj : msdigit bb.length L j c < bb.length := Nat.mod_lt _ hk
    rw [List.getD_eq_getElem _ _ hdi, List.getD_eq_getElem _ _ hdj] at hcc
    have := (hb.getElem_inj_iff).mp hcc
    omega
  exact hpw

/-- C4 amended: for every length L >= 1 and every alphabet collection of k
distinct valid symbols, exhaustive construction succeeds and returns a
matrix with exactly k^L rows, all distinct; if moreover the collection
lists its symbols in increasing code order, the rows are in strictly
increasing lexicographic order over the 2-bit codes. -/
theorem make_array_all_dna_seqs_props (L : Nat) (bases : List Char)
    (hL : 1 ≤ L)
    (hvalid : ∀ c ∈ bases, c ∈ (['A', 'C', 'G', 'T'] : List Char))
    (hne : bases ≠ [])
    (hnodup : bases.Nodup) :
    make_array_with_all_dna_seqs L bases =
      Except.ok (make_all_seqs_arr (bases.filterMap base2bits) L) ∧
    (make_all_seqs_arr (bases.filterMap base2bits) L).length = bases.length ^ L ∧
    (make_all_seqs_arr (bases.filterMap base2bits) L).Nodup ∧
    (List.Pairwise (· < ·) (bases.filterMap base2bits) →
      List.Pairwise (List.Lex (· < ·)) (make_all_seqs_arr (bases.filterMap base2bits) L)) := by
  clear hL
  have hfl : (bases.filterMap base2bits).length = bases.length :=
    filterMap_base2bits_length bases hvalid
  have hk : 0 < (bases.filterMap base2bits).length := by
    rw [hfl]
    exact List.length_pos.mpr hne
  refine ⟨?_, ?_, ?_, ?_⟩
  · have hall : (bases.all fun c => decide (c ∈ (['A', 'C', 'G', 'T'] : List Char))) = true := by
      rw [List.all_eq_true]
      intro c hc
      exact decide_eq_true (hvalid c hc)
    unfold make_array_with_all_dna_seqs
    rw [if_neg (not_not_intro hall), if_neg (fun h => hne (List.length_eq_zero.mp h))]
  · simp [make_all_seqs_arr, hfl]
  · exact make_all_seqs_arr_nodup (bases.filterMap base2bits) L
      (filterMap_base2bits_nodup bases hvalid hnodup) hk
  · intro hsorted
    exact make_all_seqs_arr_sorted (bases.filterMap base2bits) L hsorted hk

/-- C4 witness: the amended properties at length 1 and alphabet ('A', 'C'). -/
theorem make_array_all_dna_seqs_props_witness :
    1 ≤ 1 ∧
    (∀ c ∈ (['A', 'C'] : List Char), c ∈ (['A', 'C', 'G', 'T'] : List Char)) ∧
    (['A', 'C'] : List Char) ≠ [] ∧
    (['A', 'C'] : List Char).Nodup ∧
    (make_array_with_all_dna_seqs 1 ['A', 'C'] =
      Except.ok (make_all_seqs_arr ((['A', 'C'] : List Char).filterMap base2bits) 1) ∧
    (make_all_seqs_arr ((['A', 'C'] : List Char).filterMap base2bits) 1).length =
      (['A', 'C'] : List Char).length ^ 1 ∧
    (make_all_seqs_arr ((['A', 'C'] : List Char).filterMap base2bits) 1).Nodup ∧
    (List.Pairwise (· < ·) ((['A', 'C'] : List Char).filterMap base2bits) →
      List.Pairwise (List.Lex (· < ·))
        (make_all_seqs_arr ((['A', 'C'] : List Char).filterMap base2bits) 1))) :=
  ⟨by decide, by decide, by decide, by decide,
   make_array_all_dna_seqs_props 1 ['A', 'C'] (by decide) (by decide) (by decide)
    (by decide)⟩

/-- Helper: dot product against an empty right vector. -/
theorem dotN_nil_right (l : List Nat) : dotN l [] = 0 := by
  cases l <;> simp [dotN]

/-- Helper: dot product with an all-zero left vector. -/
theorem dotN_replicate_zero : ∀ (j : Nat) (l : List Nat), dotN (List.replicate j 0) l = 0
  | 0, _ => by simp [dotN]
  | _ + 1, [] => by simp [dotN]
  | j + 1, y :: ls => by
    simp only [List.replicate_succ, dotN, List.zipWith_cons_cons, List.sum_cons]
    have := dotN_replicate_zero j ls
    simp only [dotN] at this
    omega

/-- Helper: leading zeros in the left vector skip the corresponding entries
of the right vector. -/
theorem dotN_zero_pad_left : ∀ (j : Nat) (p l : List Nat),
    dotN (List.replicate j 0 ++ p) l = dotN p (l.drop j)
  | 0, p, l => by simp
  | j + 1, p, [] => by
    rw [List.drop_nil, dotN_nil_right, dotN_nil_right]
  | j + 1, p, y :: ls => by
    simp only [List.replicate_succ, List.cons_append, dotN, List.zipWith_cons_cons,
      List.sum_cons, List.drop_succ_cons]
    have := dotN_zero_pad_left j p ls
    simp only [dotN] at this
    omega

/-- Helper: trailing zeros in the left vector contribute nothing. -/
theorem dotN_zero_pad_right : ∀ (p : List Nat) (j : Nat) (l : List Nat),
    dotN (p ++ List.replicate j 0) l = dotN p l
  | [], j, l => by
    rw [List.nil_append, dotN_replicate_zero]
    simp [dotN]
  | _ :: _, _, [] => by
    rw [dotN_nil_right, dotN_nil_right]
  | x :: ps, j, y :: ls => by
    simp only [List.cons_append, dotN, List.zipWith_cons_cons, List.sum_cons]
    have := dotN_zero_pad_right ps j ls
    simp only [dotN] at this
    omega

/-- Helper: the dot product only reads the first `p.length` entries of the
right vector. -/
theorem dotN_truncate : ∀ (p l : List Nat), dotN p l = dotN p (l.take p.length)
  | [], l => by simp [dotN]
  | _ :: _, [] => by simp
  | x :: ps, y :: ls => by
    simp only [List.length_cons, List.take_succ_cons, dotN, List.zipWith_cons_cons,
      List.sum_cons]
    have := dotN_truncate ps ls
    simp only [dotN] at this
    omega

/-- Helper: the dot product is symmetric. -/
theorem dotN_comm : ∀ (l1 l2 : List Nat), dotN l1 l2 = dotN l2 l1
  | [], l2 => by rw [dotN_nil_right]; simp [dotN]
  | _ :: _, [] => by rw [dotN_nil_right]; simp [dotN]
  | x :: l1, y :: l2 => by
    simp only [dotN, List.zipWith_cons_cons, List.sum_cons]
    have := dotN_comm l1 l2
    simp only [dotN] at this
    rw [this]
    ring

/-- Helper: scaling the right vector scales the dot product. -/
theorem dotN_map_mul (c : Nat) : ∀ (l1 l2 : List Nat),
    dotN l1 (l2.map (fun y => c * y)) = c * dotN l1 l2
  | [], _ => by simp [dotN]
  | _ :: _, [] => by simp [dotN]
  | x :: l1, y :: l2 => by
    simp only [List.map_cons, dotN, List.zipWith_cons_cons, List.sum_cons]
    have := dotN_map_mul c l1 l2
    simp only [dotN] at this
    rw [this]
    ring

/-- Helper: the dot product of a window with the power vector
`[1, 4, 16, ...]` is its base-4 positional value. -/
theorem dotN_powarr_val4 : ∀ w : List Nat,
    dotN w ((List.range w.length).map (fun k => 4 ^ k)) = val4 w
  | [] => by simp [dotN, val4]
  | x :: w => by
    rw [List.length_cons, List.range_succ_eq_map, List.map_cons, List.map_map]
    have hmap : (List.map ((fun k => (4 : Nat) ^ k) ∘ Nat.succ) (List.range w.length)) =
        (List.map (fun k => (4 : Nat) ^ k) (List.range w.length)).map
          (fun y => 4 * y) := by
      rw [List.map_map]
      apply List.map_congr_left
      intro k _
      simp [Function.comp, pow_succ]
      ring
    rw [hmap]
    simp only [dotN, List.zipWith_cons_cons, List.sum_cons, pow_zero]
    have hmul := dotN_map_mul 4 w ((List.range w.length).map (fun k => (4 : Nat) ^ k))
    simp only [dotN] at hmul
    rw [hmul]
    have := dotN_powarr_val4 w
    simp only [dotN] at this
    rw [this]
    simp [val4]

/-- Helper: the base-4 value determines the window among fixed-length windows
of 2-bit digits. -/
theorem val4_inj : ∀ (w1 w2 : List Nat), w1.length = w2.length →
    (∀ x ∈ w1, x < 4) → (∀ x ∈ w2, x < 4) → val4 w1 = val4 w2 → w1 = w2
  | [], [], _, _, _, _ => rfl
  | [], _ :: _, h, _, _, _ => absurd h (by simp)
  | _ :: _, [], h, _, _, _ => absurd h (by simp)
  | x :: w1, y :: w2, hlen, h1, h2, hval => by
    have hx : x < 4 := h1 x (by simp)
    have hy : y < 4 := h2 y (by simp)
    have hv : x + 4 * val4 w1 = y + 4 * val4 w2 := hval
    have hxy : x = y := by omega
    have hw : val4 w1 = val4 w2 := by omega
    have := val4_inj w1 w2 (by simpa using hlen)
      (fun a ha => h1 a (by simp [ha])) (fun a ha => h2 a (by simp [ha])) hw
    rw [hxy, this]

/-- Helper: for in-range shifts the rolled Toeplitz row is the power vector
padded with `i` zeros on the left and `n - m - i` zeros on the right (the
roll never wraps the nonzero band). -/
theorem np_roll_toeplitz_row (m n i : Nat) (hm : 1 ≤ m) (hmn : m ≤ n) (hi : i ≤ n - m) :
    np_roll (((List.range m).map (fun k => 4 ^ k)) ++ List.replicate (n - m) 0) i =
      List.replicate i 0 ++ (((List.range m).map (fun k => 4 ^ k)) ++
        List.replicate (n - m - i) 0) := by
  have hplen : (((List.range m).map (fun k => (4 : Nat) ^ k))).length = m := by simp
  have hlen : ((((List.range m).map (fun k => (4 : Nat) ^ k))) ++
      List.replicate (n - m) 0).length = n := by
    simp
    omega
  unfold np_roll
  rw [if_neg (by rw [hlen]; omega)]
  rw [hlen]
  have hmod : i % n = i := Nat.mod_eq_of_lt (by omega)
  rw [hmod]
  rw [List.drop_append_eq_append_drop, List.take_append_eq_append_take]
  rw [List.drop_eq_nil_of_le (by rw [hplen]; omega)]
  rw [List.take_of_length_le (by rw [hplen]; omega)]
  rw [hplen, List.drop_replicate, List.take_replicate]
  rw [List.nil_append]
  have h1 : n - m - (n - i - m) = i := by omega
  have h2 : min (n - i - m) (n - m) = n - m - i := by omega
  rw [h1, h2]

/-- Helper: the dot product of a Toeplitz row with a sequence vector is the
base-4 value of the window at the row's offset. -/
theorem dotN_toeplitz_window (m n i : Nat) (rowN : List Nat) (hrow : rowN.length = n)
    (hm : 1 ≤ m) (hmn : m ≤ n) (hi : i ≤ n - m) :
    dotN (np_roll (((List.range m).map (fun k => 4 ^ k)) ++ List.replicate (n - m) 0) i)
      rowN = val4 ((rowN.drop i).take m) := by
  rw [np_roll_toeplitz_row m n i hm hmn hi]
  rw [dotN_zero_pad_left, dotN_zero_pad_right]
  have hplen : (((List.range m).map (fun k => (4 : Nat) ^ k))).length = m := by simp
  rw [dotN_truncate, hplen]
  have hw : ((rowN.drop i).take m).length = m := by
    simp only [List.length_take, List.length_drop, hrow]
    omega
  have hval := dotN_powarr_val4 ((rowN.drop i).take m)
  rw [hw] at hval
  rw [dotN_comm]
  exact hval

/-- Helper: a fixed-length window at some valid offset equals `sub` exactly
when `sub` occurs as a contiguous substring. -/
theorem window_eq_iff_occurs (sub row : List (Fin 4)) (hmn : sub.length ≤ row.length) :
    (∃ i, i ≤ row.length - sub.length ∧ (row.drop i).take sub.length = sub) ↔
      sub <:+: row := by
  constructor
  · rintro ⟨i, _, heq⟩
    refine ⟨row.take i, row.drop (i + sub.length), ?_⟩
    calc row.take i ++ sub ++ row.drop (i + sub.length)
        = row.take i ++ ((row.drop i).take sub.length ++ (row.drop i).drop sub.length) := by
          rw [heq, List.drop_drop, ← List.append_assoc]
    _ = row.take i ++ row.drop i := by rw [List.take_append_drop]
    _ = row := List.take_append_drop i row
  · rintro ⟨s, t, hst⟩
    refine ⟨s.length, ?_, ?_⟩
    · have hl := congrArg List.length hst
      simp only [List.length_append] at hl
      omega
    · have hdrop : row.drop s.length = sub ++ t := by
        rw [← hst, List.append_assoc]
        exact List.drop_left s (sub ++ t)
      rw [hdrop]
      exact List.take_left sub t

/-- Helper: a nonempty constant list deduplicates to a singleton. -/
theorem dedup_length_one_of_const {l : List Nat} {m : Nat} (hne : l ≠ [])
    (h : ∀ a ∈ l, a = m) : l.dedup.length = 1 := by
  have hnodup := l.nodup_dedup
  cases hd : l.dedup with
  | nil =>
    have : l = [] := by
      rw [← List.dedup_eq_nil]
      exact hd
    exact absurd this hne
  | cons y ys =>
    have hy : y = m := h y (by rw [← List.mem_dedup, hd]; simp)
    cases ys with
    | nil => rfl
    | cons z zs =>
      have hz : z = m := h z (by rw [← List.mem_dedup, hd]; simp)
      rw [hd] at hnodup
      have hys := List.nodup_cons.mp hnodup
      exact absurd (by rw [hy, hz] : y = z) (fun he => hys.1 (he ▸ (by simp)))

/-- Helper: a singleton dedup means all entries are equal. -/
theorem all_eq_of_dedup_length_one {l : List Nat} (h : l.dedup.length = 1) :
    ∀ a ∈ l, ∀ b ∈ l, a = b := by
  obtain ⟨x, hx⟩ := List.length_eq_one.mp h
  intro a ha b hb
  have ha2 : a ∈ l.dedup := List.mem_dedup.mpr ha
  have hb2 : b ∈ l.dedup := List.mem_dedup.mpr hb
  rw [hx] at ha2 hb2
  simp only [List.mem_singleton] at ha2 hb2
  rw [ha2, hb2]

/-- Helper: two booleans agreeing as propositions are equal. -/
theorem bool_eq_of_iff {a b : Bool} (h : (a = true) ↔ (b = true)) : a = b := by
  cases a <;> cases b <;> simp_all


/-- Helper: per-row agreement of the Toeplitz window test with the naive
containment test, for equal-length nonempty forbidden substrings fitting in
the row. -/
theorem filter_substring_row_eq (seqlen m : Nat) (subs : List (List Char))
    (row : List (Fin 4))
    (hrow : row.length = seqlen)
    (hvalid : ∀ sub ∈ subs, ∀ c ∈ sub, c ∈ (['A', 'C', 'G', 'T'] : List Char))
    (hlen : ∀ sub ∈ subs, sub.length = m)
    (hm : 1 ≤ m) (hmn : m ≤ seqlen) :
    ((subs.map (fun sub => (sub.filterMap base2bits).map Fin.val)).map
        (fun si => dotN si ((List.range m).map (fun k => 4 ^ k)))).all
      (fun v => (create_toeplitz seqlen m).all
        (fun trow => decide (dotN trow (row.map Fin.val) ≠ v))) =
    subs.all (fun sub => !(decide ((sub.filterMap base2bits) <:+: row))) := by
  have hrowN : (row.map Fin.val).length = seqlen := by simp [hrow]
  apply bool_eq_of_iff
  rw [List.all_eq_true, List.all_eq_true]
  constructor
  · intro hL sub hsub
    simp only [Bool.not_eq_true', decide_eq_false_iff_not]
    intro hinf
    have hcl : (sub.filterMap base2bits).length = m := by
      rw [filterMap_base2bits_length sub (hvalid sub hsub)]
      exact hlen sub hsub
    obtain ⟨i, hi, heq⟩ :=
      (window_eq_iff_occurs (sub.filterMap base2bits) row
        (by rw [hcl, hrow]; exact hmn)).mpr hinf
    rw [hcl, hrow] at hi
    rw [hcl] at heq
    have hvmem : dotN ((sub.filterMap base2bits).map Fin.val)
        ((List.range m).map (fun k => 4 ^ k)) ∈
        (subs.map (fun sub => (sub.filterMap base2bits).map Fin.val)).map
          (fun si => dotN si ((List.range m).map (fun k => 4 ^ k))) :=
      List.mem_map.mpr ⟨_, List.mem_map.mpr ⟨sub, hsub, rfl⟩, rfl⟩
    have hv := hL _ hvmem
    rw [List.all_eq_true] at hv
    have htmem : np_roll (((List.range m).map (fun k => 4 ^ k)) ++
        List.replicate (seqlen - m) 0) i ∈ create_toeplitz seqlen m := by
      unfold create_toeplitz
      exact List.mem_map.mpr ⟨i, List.mem_range.mpr (by omega), rfl⟩
    have ht := hv _ htmem
    rw [decide_eq_true_eq] at ht
    apply ht
    rw [dotN_toeplitz_window m seqlen i (row.map Fin.val) hrowN hm hmn hi]
    have hvv := dotN_powarr_val4 ((sub.filterMap base2bits).map Fin.val)
    rw [List.length_map, hcl] at hvv
    rw [hvv]
    congr 1
    rw [← List.map_drop, ← List.map_take, heq]
  · intro hR v hv
    rw [List.all_eq_true]
    intro trow htrow
    rw [decide_eq_true_eq]
    obtain ⟨si, hsi, rfl⟩ := List.mem_map.mp hv
    obtain ⟨sub, hsub, rfl⟩ := List.mem_map.mp hsi
    have hcl : (sub.filterMap base2bits).length = m := by
      rw [filterMap_base2bits_length sub (hvalid sub hsub)]
      exact hlen sub hsub
    unfold create_toeplitz at htrow
    obtain ⟨i, hirange, rfl⟩ := List.mem_map.mp htrow
    have hi : i ≤ seqlen - m := by
      have := List.mem_range.mp hirange
      omega
    intro hEq
    rw [dotN_toeplitz_window m seqlen i (row.map Fin.val) hrowN hm hmn hi] at hEq
    have hvv := dotN_powarr_val4 ((sub.filterMap base2bits).map Fin.val)
    rw [List.length_map, hcl] at hvv
    rw [hvv] at hEq
    have hwlen : (((row.map Fin.val).drop i).take m).length = m := by
      simp only [List.length_take, List.length_drop, List.length_map, hrow]
      omega
    have hclen : ((sub.filterMap base2bits).map Fin.val).length = m := by
      rw [List.length_map, hcl]
    have hwbound : ∀ x ∈ ((row.map Fin.val).drop i).take m, x < 4 := by
      intro x hx
      have hx2 : x ∈ row.map Fin.val :=
        List.mem_of_mem_drop (List.mem_of_mem_take hx)
      obtain ⟨b, _, rfl⟩ := List.mem_map.mp hx2
      exact b.isLt
    have hcbound : ∀ x ∈ (sub.filterMap base2bits).map Fin.val, x < 4 := by
      intro x hx
      obtain ⟨b, _, rfl⟩ := List.mem_map.mp hx
      exact b.isLt
    have hwnd := val4_inj _ _ (by rw [hwlen, hclen]) hwbound hcbound hEq
    have hslice : (row.drop i).take m = sub.filterMap base2bits := by
      apply List.map_injective_iff.mpr Fin.val_injective
      rw [List.map_take, List.map_drop]
      exact hwnd
    have hinf : (sub.filterMap base2bits) <:+: row := by
      apply (window_eq_iff_occurs (sub.filterMap base2bits) row
        (by rw [hcl, hrow]; exact hmn)).mp
      exact ⟨i, by rw [hcl, hrow]; exact hi, by rw [hcl]; exact hslice⟩
    have hRs := hR sub hsub
    simp only [Bool.not_eq_true', decide_eq_false_iff_not] at hRs
    exact hRs hinf

/-- C5: for equal-length nonempty forbidden substrings of length at most
`seqlen`, `filter_substring` keeps exactly the rows that contain none of
them as a contiguous substring (agreeing with the naive per-row containment
check); if the forbidden substrings do not all share one length, it fails
with a configuration error. -/
theorem filter_substring_correct (seqlen : Nat) (seqarr : List (List (Fin 4)))
    (subs : List (List Char)) (m : Nat)
    (hrows : ∀ row ∈ seqarr, row.length = seqlen)
    (hvalid : ∀ sub ∈ subs, ∀ c ∈ sub, c ∈ (['A', 'C', 'G', 'T'] : List Char)) :
    (subs ≠ [] → (∀ sub ∈ subs, sub.length = m) → 1 ≤ m → m ≤ seqlen →
      filter_substring seqlen seqarr subs =
        Except.ok (filter_substring_naive seqarr subs)) ∧
    ((∃ s1 ∈ subs, ∃ s2 ∈ subs, s1.length ≠ s2.length) →
      isErrorE (filter_substring seqlen seqarr subs) = true) := by
  constructor
  · intro hne hlen hm hmn
    have hded : ((subs.map List.length).dedup).length = 1 := by
      apply dedup_length_one_of_const (m := m)
      · simpa using hne
      · intro a ha
        obtain ⟨sub, hsub, rfl⟩ := List.mem_map.mp ha
        exact hlen sub hsub
    have hhead : (subs.headD []).length = m := by
      cases subs with
      | nil => exact absurd rfl hne
      | cons s ss => exact hlen s (by simp)
    simp only [filter_substring]
    rw [if_neg (not_not_intro hded), hhead]
    unfold filter_substring_naive
    congr 1
    apply List.filter_congr
    intro row hrowmem
    exact filter_substring_row_eq seqlen m subs row (hrows row hrowmem) hvalid hlen hm hmn
  · rintro ⟨s1, hs1, s2, hs2, hne12⟩
    simp only [filter_substring]
    rw [if_pos ?_]
    · rfl
    · intro hone
      exact hne12 (all_eq_of_dedup_length_one hone _ (List.mem_map.mpr ⟨s1, hs1, rfl⟩)
        _ (List.mem_map.mpr ⟨s2, hs2, rfl⟩))

/-- C5 witness: on rows "AC","GG" with forbidden substring "AC", the filter
succeeds and agrees with the naive containment check. -/
theorem filter_substring_correct_witness :
    (∀ row ∈ ([[(0 : Fin 4), (1 : Fin 4)], [(2 : Fin 4), (2 : Fin 4)]] :
        List (List (Fin 4))), row.length = 2) ∧
    (∀ sub ∈ ([['A', 'C']] : List (List Char)), ∀ c ∈ sub,
        c ∈ (['A', 'C', 'G', 'T'] : List Char)) ∧
    ((([['A', 'C']] : List (List Char)) ≠ [] →
      (∀ sub ∈ ([['A', 'C']] : List (List Char)), sub.length = 2) → 1 ≤ 2 → 2 ≤ 2 →
      filter_substring 2 [[(0 : Fin 4), (1 : Fin 4)], [(2 : Fin 4), (2 : Fin 4)]]
          [['A', 'C']] =
        Except.ok (filter_substring_naive
          [[(0 : Fin 4), (1 : Fin 4)], [(2 : Fin 4), (2 : Fin 4)]] [['A', 'C']])) ∧
    ((∃ s1 ∈ ([['A', 'C']] : List (List Char)), ∃ s2 ∈ ([['A', 'C']] : List (List Char)),
        s1.length ≠ s2.length) →
      isErrorE (filter_substring 2
        [[(0 : Fin 4), (1 : Fin 4)], [(2 : Fin 4), (2 : Fin 4)]] [['A', 'C']]) = true)) :=
  ⟨by decide, by decide,
   filter_substring_correct 2 [[(0 : Fin 4), (1 : Fin 4)], [(2 : Fin 4), (2 : Fin 4)]]
    [['A', 'C']] 2 (by decide) (by decide)⟩
